import Mathlib

/-!
Verification of the MSDS document-intake pipeline: a shallow embedding of
the page-text acquisition module (msds_text_extractor.py), the visual-order
reconstruction module (utils/robust_pdf_text.py) and the section splitter
(section/msds_section_splitter.py), together with proofs of the claimed
properties.
-/

namespace MSDS

open List (Perm)

/- ## Character and string utilities shared by the embeddings -/

/-- Whitespace characters recognised by Python's str.strip and the regex
class backslash-s (ASCII range). -/
def pyWS (c : Char) : Bool :=
  c = ' ' || c = '\t' || c = '\n' || c = '\r' || c = '\x0b' || c = '\x0c'

/-- Python str.strip on a character list: drop whitespace from both ends. -/
def stripWS (cs : List Char) : List Char :=
  ((cs.dropWhile pyWS).reverse.dropWhile pyWS).reverse

/-- Python str.strip(chars) with the set consisting of space and colon. -/
def stripSpColon (cs : List Char) : List Char :=
  let p := fun c => c = ' ' || c = ':'
  ((cs.dropWhile p).reverse.dropWhile p).reverse

/-- ASCII lowercasing, as Python str.lower acts on the ASCII letters used by
the lexicon (Korean characters are unaffected in both). -/
def lowerL (cs : List Char) : List Char := cs.map Char.toLower

/-- ASCII uppercasing (Python str.upper on ASCII). -/
def upperL (cs : List Char) : List Char := cs.map Char.toUpper

/-- Does the list start with the given pattern. -/
def startsWithL : List Char → List Char → Bool
  | [], _ => true
  | _ :: _, [] => false
  | p :: ps, c :: cs => p = c && startsWithL ps cs

/-- Python substring containment: pattern occurs contiguously in the list. -/
def hasSubL (pat : List Char) : List Char → Bool
  | [] => startsWithL pat []
  | c :: rest => startsWithL pat (c :: rest) || hasSubL pat rest

/-- String to character list. -/
def strToL (s : String) : List Char := s.toList

/-- Python str.strip applied to a String. -/
def pyStrip (s : String) : String := String.mk (stripWS s.toList)

/- ## PageTextAcquirer: embedding of msds_text_extractor.py -/

/-- Result record for one page, mirroring the PageResult dataclass. -/
structure PageResult where
  page_index : Nat
  source : String
  text : String
  is_scanned_guess : Bool
  attempts : List String
deriving DecidableEq, Repr

/-- Result record for a whole document, mirroring the ExtractResult
dataclass. -/
structure ExtractResult where
  pages : List PageResult
  merged_text : String
  final_decision_log : List String
deriving DecidableEq, Repr

/-- OCR engine configuration: page segmentation mode and engine mode, the
two values interpolated into the pytesseract config string. -/
structure OcrCfg where
  psm : Nat
  oem : Nat
deriving DecidableEq, Repr

/-- Image preprocessing configuration, mirroring the keyword arguments of
the preprocess helper (scale, blur kernel, adaptive flag, block, C). -/
structure PreCfg where
  scale : ℚ
  blur : Nat
  adaptive : Bool
  block : Nat
  cval : Nat
deriving DecidableEq, Repr

/-- Input data for one page: its native digital text layer and its rendered
raster image (the image type is abstract; OCR is an oracle over it). -/
structure PageIn (Img : Type) where
  native : String
  img : Img

/-- The has-enough-text test: trimmed length at least the threshold. -/
def hasEnoughText (s : String) (minLen : Nat) : Bool :=
  minLen ≤ (pyStrip s).length

/-- Per-page decision procedure of extract_pdf_text_auto: accept the digital
text layer when long enough, otherwise run OCR once and, when the first
output is too short, once more on the preprocessed image. -/
def procPage {Img : Type} (ocrF : OcrCfg → Img → String)
    (preF : PreCfg → Img → Img) (i : Nat) (p : PageIn Img) : PageResult :=
  if hasEnoughText p.native 40 then
    ⟨i, "digital", p.native, false, ["digital ok"]⟩
  else
    let t1 := pyStrip (ocrF ⟨6, 3⟩ p.img)
    if hasEnoughText t1 10 then
      ⟨i, "ocr", t1, true, ["ocr psm6 oem3 adaptive"]⟩
    else
      let t2 := pyStrip (ocrF ⟨4, 3⟩ (preF ⟨(9 : ℚ) / 5, 3, true, 31, 10⟩ p.img))
      ⟨i, "ocr", t2, true, ["ocr psm6 oem3 adaptive", "ocr psm4 oem3 adaptive+resize"]⟩

/-- The page loop of extract_pdf_text_auto, carrying the running page
index. -/
def extractPages {Img : Type} (ocrF : OcrCfg → Img → String)
    (preF : PreCfg → Img → Img) : Nat → List (PageIn Img) → List PageResult
  | _, [] => []
  | i, p :: rest => procPage ocrF preF i p :: extractPages ocrF preF (i + 1) rest

/-- Embedding of extract_pdf_text_auto: one PageResult per page in index
order, merged text joined with blank lines, and the summary decision log. -/
def extract_pdf_text_auto {Img : Type} (ocrF : OcrCfg → Img → String)
    (preF : PreCfg → Img → Img) (inputs : List (PageIn Img)) : ExtractResult :=
  let pages := extractPages ocrF preF 0 inputs
  let merged := String.intercalate "\n\n" (pages.map (fun p => p.text))
  let logs :=
    if pages.any (fun p => p.source == "ocr") then
      ["일부/전체 페이지에서 스캔본으로 판정되어 OCR을 수행했습니다."]
    else
      ["디지털 텍스트가 충분하여 OCR 없이 추출했습니다."]
  ⟨pages, merged, logs⟩

/- ## VisualOrderReconstructor: embedding of utils/robust_pdf_text.py -/

/-- A positioned word tuple as produced by page.get_text("words"):
bounding box, string content, block, line and word number. -/
structure Token where
  x0 : ℚ
  y0 : ℚ
  x1 : ℚ
  y1 : ℚ
  word : String
  block : Nat
  line : Nat
  wno : Nat
deriving DecidableEq, Repr

/-- Python int() on a rational: truncation toward zero. -/
def pyInt (q : ℚ) : ℤ := if 0 ≤ q then ⌊q⌋ else ⌈q⌉

/-- Python round() on a rational: round half to even. -/
def qround (q : ℚ) : ℤ :=
  let f := ⌊q⌋
  let r := q - (f : ℚ)
  if r < 1 / 2 then f
  else if 1 / 2 < r then f + 1
  else if f % 2 = 0 then f else f + 1

/-- The median helper: middle element of the sorted list, or the default
for an empty list. -/
def medianQ (vals : List ℚ) (dflt : ℚ) : ℚ :=
  if vals.isEmpty then dflt
  else (List.insertionSort (fun a b : ℚ => a ≤ b) vals).getD (vals.length / 2) 0

/-- Insert into a sorted duplicate-free list of integers, skipping an
element already present. -/
def insertIntU (x : ℤ) : List ℤ → List ℤ
  | [] => [x]
  | y :: ys => if x < y then x :: y :: ys else if x = y then y :: ys else y :: insertIntU x ys

/-- Python sorted(set(l)) for integers. -/
def sortedDedupInt (l : List ℤ) : List ℤ := l.foldr insertIntU []

/-- Adjacent gaps of a sorted list of x positions, as triples
(gap width, left x, right x). -/
def gapsOf : List ℤ → List (ℤ × ℤ × ℤ)
  | x :: y :: rest => (y - x, x, y) :: gapsOf (y :: rest)
  | _ => []

/-- Distinct truncated token left edges, sorted. -/
def xsOf (words : List Token) : List ℤ :=
  sortedDedupInt (words.map (fun w => pyInt w.x0))

/-- Median token height of the page, default ten. -/
def hMedOf (words : List Token) : ℚ :=
  medianQ (words.map (fun w => w.y1 - w.y0)) 10

/-- Column boundary candidates: the gaps wider than six median heights. -/
def bigOf (words : List Token) : List (ℤ × ℤ × ℤ) :=
  (gapsOf (xsOf words)).filter (fun g => decide (hMedOf words * 6 < (g.1 : ℚ)))

/-- Descending lexicographic order on gap triples, as used by Python
list.sort(reverse=True). -/
def gapGe (a b : ℤ × ℤ × ℤ) : Prop :=
  b.1 < a.1 ∨ (a.1 = b.1 ∧ (b.2.1 < a.2.1 ∨ (a.2.1 = b.2.1 ∧ b.2.2 ≤ a.2.2)))

instance : DecidableRel gapGe := fun a b => by unfold gapGe; infer_instance

/-- The gap list sorted largest first. -/
def sortGapsDesc (l : List (ℤ × ℤ × ℤ)) : List (ℤ × ℤ × ℤ) :=
  List.insertionSort gapGe l

/-- Cut lines: midpoints of the at most two largest boundary candidates,
in increasing order. -/
def cutsOf (words : List Token) : List ℚ :=
  List.insertionSort (fun a b : ℚ => a ≤ b)
    (((sortGapsDesc (bigOf words)).take 2).map
      (fun g => ((g.2.1 : ℚ) + (g.2.2 : ℚ)) / 2))

/-- Column index of an x position relative to the sorted cut lines: the
while loop advancing past every cut line strictly below x. -/
def colIdxGo : List ℚ → ℚ → Nat
  | [], _ => 0
  | c :: cs, x => if c < x then 1 + colIdxGo cs x else 0

/-- The column buckets induced by the cut lines: bucket j holds the tokens
whose left edge falls in column j, in original order. -/
def colsOf (words : List Token) : List (List Token) :=
  (List.range ((cutsOf words).length + 1)).map
    (fun j => words.filter (fun w => decide (colIdxGo (cutsOf words) w.x0 = j)))

/-- Embedding of detect_columns: partition the tokens into the column
groups induced by the cut lines, keeping only nonempty groups, with the
whole token list as the degenerate fallback. -/
def detect_columns (words : List Token) : List (List Token) :=
  if words.isEmpty then [words]
  else if (bigOf words).isEmpty then [words]
  else if (colsOf words).filter (fun c => !c.isEmpty) = [] then [words]
  else (colsOf words).filter (fun c => !c.isEmpty)

/-- Row key and x position of a token: the sort key used inside a column. -/
def rkey (ytol : ℚ) (w : Token) : ℤ × ℚ := (qround (w.y0 / ytol), w.x0)

/-- Lexicographic comparison of row keys: top to bottom, then left to
right. -/
def keyLE (ytol : ℚ) (a b : Token) : Prop :=
  (rkey ytol a).1 < (rkey ytol b).1 ∨
    ((rkey ytol a).1 = (rkey ytol b).1 ∧ (rkey ytol a).2 ≤ (rkey ytol b).2)

instance (ytol : ℚ) : DecidableRel (keyLE ytol) := fun a b => by
  unfold keyLE; infer_instance

/-- Stable sort of a column by row key then x position. -/
def sortCol (ytol : ℚ) (col : List Token) : List Token :=
  List.insertionSort (keyLE ytol) col

/-- Order on tokens by left edge only, used when flushing a row buffer. -/
def xLE (a b : Token) : Prop := a.x0 ≤ b.x0

instance : DecidableRel xLE := fun a b => by unfold xLE; infer_instance

/-- Row buffer sorted by left edge. -/
def sortByX (buf : List Token) : List Token := List.insertionSort xLE buf

/-- Concatenate a row's words, inserting a single space where the
horizontal gap between consecutive tokens exceeds the threshold. -/
def renderRowGo (gapThr : ℚ) : Option ℚ → List Token → String
  | _, [] => ""
  | prev, t :: ts =>
    (match prev with
     | some px => if gapThr < t.x0 - px then " " else ""
     | none => "") ++ t.word ++ renderRowGo gapThr (some t.x1) ts

/-- Flush a row buffer: nothing for an empty buffer, otherwise the
rendered row. -/
def flushOut (gapThr : ℚ) (buf : List Token) : List String :=
  if buf.isEmpty then [] else [renderRowGo gapThr none (sortByX buf)]

/-- The row-grouping loop over a sorted column, carrying the current row
key, the row buffer and the emitted lines. -/
def rowsLoop (ytol gapThr : ℚ) : List Token → Option ℤ → List Token → List String → List String
  | [], _, buf, acc => acc ++ flushOut gapThr buf
  | w :: ws, cur, buf, acc =>
    let yk := qround (w.y0 / ytol)
    match cur with
    | none => rowsLoop ytol gapThr ws (some yk) (buf ++ [w]) acc
    | some c =>
      if yk ≠ c then rowsLoop ytol gapThr ws (some yk) [w] (acc ++ flushOut gapThr buf)
      else rowsLoop ytol gapThr ws (some c) (buf ++ [w]) acc

/-- Embedding of extract_by_words: detect columns, sort each column by row
key, emit rows with a blank separator line after each column. -/
def extract_by_words (words : List Token) : String :=
  if words.isEmpty then ""
  else
    let hMed := hMedOf words
    let ytol := max 3 (hMed * 3 / 5)
    let gapThr := hMed * 3 / 10
    let linesOut := (detect_columns words).flatMap
      (fun col => rowsLoop ytol gapThr (sortCol ytol col) none [] [] ++ [""])
    String.intercalate "\n" linesOut

/- ## SectionSegmenter: embedding of section/msds_section_splitter.py -/

/-- The sixteen canonical section keys, in standard order. -/
def canonKeys : List String :=
  ["identification", "hazards", "composition", "first_aid", "fire_fighting",
   "accidental_release", "handling_storage", "exposure_ppe", "physical_chemical",
   "stability_reactivity", "toxicology", "ecology", "disposal", "transport",
   "regulation", "other"]

/-- The fixed KOSHA number to canonical key table NUM_TO_CANON. -/
def NUM_TO_CANON : List (String × String) :=
  [("1", "identification"), ("2", "hazards"), ("3", "composition"),
   ("4", "first_aid"), ("5", "fire_fighting"), ("6", "accidental_release"),
   ("7", "handling_storage"), ("8", "exposure_ppe"), ("9", "physical_chemical"),
   ("10", "stability_reactivity"), ("11", "toxicology"), ("12", "ecology"),
   ("13", "disposal"), ("14", "transport"), ("15", "regulation"), ("16", "other")]

/-- The synonym lexicon BASE_SYNONYMS of section/msds_header_lexicon.py,
whose import succeeds in this repository. -/
def BASE_SYNONYMS : List (String × List String) :=
  [("identification",
    ["제품 및 회사", "화학제품과 제조회사", "제품 식별", "식별", "제품명", "제품 식별자",
     "supplier identification", "company identification", "identification"]),
   ("hazards",
    ["유해성", "위험성", "경고문구", "주의문구", "그림문자", "신호어", "표시사항",
     "hazards", "hazard identification", "label elements", "signal word"]),
   ("composition",
    ["구성성분", "성분", "조성", "원료 정보", "혼합물 정보",
     "composition", "ingredients", "mixture"]),
   ("first_aid",
    ["응급조치", "응급 처치", "의학적 조치", "흡입 시", "피부 접촉 시", "눈 접촉 시", "삼킨 경우",
     "first-aid", "first aid"]),
   ("fire_fighting",
    ["화재 시 조치", "소화", "소화 방법", "적용 소화제", "부적합 소화제",
     "fire-fighting", "fire fighting", "fire measures"]),
   ("accidental_release",
    ["누출사고", "유출사고", "누출 시 조치", "비상 조치",
     "accidental release", "spillage", "leak", "spill"]),
   ("handling_storage",
    ["취급 및 저장", "취급", "저장", "보관", "handling", "storage", "store"]),
   ("exposure_ppe",
    ["노출기준", "개인보호구", "보호장비", "작업장 관리", "환기", "PPE",
     "exposure control", "personal protection", "protective equipment"]),
   ("physical_chemical",
    ["물리·화학적 특성", "물리화학적 성질", "물리적 성질", "물리화학적 특성",
     "physical and chemical properties", "properties"]),
   ("stability_reactivity",
    ["안정성", "반응성", "위해반응", "회피조건", "금지물질",
     "stability", "reactivity"]),
   ("toxicology",
    ["독성", "독성 정보", "급성독성", "장기독성", "발암성", "생식독성",
     "toxicology", "toxicological information"]),
   ("ecology",
    ["생태", "환경 영향", "수생태 독성", "지속성", "분해성", "생물농축",
     "ecology", "ecological information"]),
   ("disposal",
    ["폐기", "폐기 시 주의사항", "폐기방법", "폐기상 주의",
     "disposal", "disposal considerations"]),
   ("transport",
    ["운송", "운송 정보", "UN 번호", "포장그룹", "해사규정", "항공운송",
     "transport", "transport information"]),
   ("regulation",
    ["규제", "법규", "법적 규제", "관련 법령", "화관법", "화평법", "산안법",
     "regulatory", "regulatory information"]),
   ("other",
    ["기타", "참고", "기타 참고사항", "개정 이력", "비고",
     "other", "references", "revision", "note"])]

/-- Case-insensitive duplicate removal over one synonym list, keeping the
first spelling of each lowercased, stripped term and dropping empties. -/
def dedupTermsGo (seen : List (List Char)) : List String → List String
  | [] => []
  | t :: ts =>
    let key := lowerL (stripWS (strToL t))
    if key.isEmpty ∨ key ∈ seen then dedupTermsGo seen ts
    else t :: dedupTermsGo (key :: seen) ts

/-- The merged search space of build_search_space. The repository ships no
config/synonyms.yml, so the optional user override is empty and the merge
reduces to deduplicating the base lexicon per key. -/
def buildSearchSpace (base : List (String × List String)) : List (String × List String) :=
  base.map (fun kv => (kv.1, dedupTermsGo [] kv.2))

/-- The module level SEARCH_SPACE. -/
def SEARCH_SPACE : List (String × List String) := buildSearchSpace BASE_SYNONYMS

/-- The fuzzy matching pool: every (canonical key, synonym term) pair. -/
def pool : List (String × String) :=
  SEARCH_SPACE.flatMap (fun kv => kv.2.map (fun t => (kv.1, t)))

/-- Embedding of the anchored regex KOSHA_HEADER_RE: optional leading
whitespace, one or two digits, a period, optional whitespace, then a
nonempty lazily matched title with trailing whitespace stripped. Returns
the digit group and the raw title group. -/
def parseKosha (ln : List Char) : Option (String × List Char) :=
  let r1 := ln.dropWhile pyWS
  let ds := r1.takeWhile Char.isDigit
  if 1 ≤ ds.length ∧ ds.length ≤ 2 then
    match r1.drop ds.length with
    | '.' :: rest =>
      if rest.isEmpty then none
      else if (stripWS rest).isEmpty then some (String.mk ds, [rest.getLastD ' '])
      else some (String.mk ds, stripWS rest)
    | _ => none
  else none

/-- Embedding of is_short_title: length between 4 and 80 with at most
three periods. -/
def isShortTitle (ln : List Char) : Bool :=
  (4 ≤ ln.length && ln.length ≤ 80) && ln.count '.' ≤ 3

/-- The scan of collect_numbered_headers, carrying the line index and the
set of canonical keys already taken; only the first header per canonical
key is kept. -/
def collectNumGo : List (List Char) → Nat → List String → List (Nat × String × List Char)
  | [], _, _ => []
  | ln :: rest, i, seen =>
    match parseKosha ln with
    | none => collectNumGo rest (i + 1) seen
    | some (num, title) =>
      match NUM_TO_CANON.lookup num with
      | none => collectNumGo rest (i + 1) seen
      | some c =>
        if c ∈ seen then collectNumGo rest (i + 1) seen
        else (i, c, stripSpColon title) :: collectNumGo rest (i + 1) (c :: seen)

/-- Embedding of collect_numbered_headers. -/
def collect_numbered_headers (lines : List (List Char)) : List (Nat × String × List Char) :=
  collectNumGo lines 0 []

/-- The scan of collect_header_candidates: numbered headers, the part
before a colon when it looks like a short title, or any other short
title-like line, as (line index, raw title, numeric hint). -/
def collectCandsGo : List (List Char) → Nat → List (Nat × List Char × Option String)
  | [], _ => []
  | ln :: rest, i =>
    match parseKosha ln with
    | some (num, title) => (i, stripSpColon title, some num) :: collectCandsGo rest (i + 1)
    | none =>
      if ln.contains ':' then
        let pre := stripWS (ln.takeWhile (fun c => c ≠ ':'))
        if isShortTitle pre then (i, pre, none) :: collectCandsGo rest (i + 1)
        else if isShortTitle ln then (i, ln, none) :: collectCandsGo rest (i + 1)
        else collectCandsGo rest (i + 1)
      else if isShortTitle ln then (i, ln, none) :: collectCandsGo rest (i + 1)
      else collectCandsGo rest (i + 1)

/-- Embedding of collect_header_candidates. -/
def collect_header_candidates (lines : List (List Char)) : List (Nat × List Char × Option String) :=
  collectCandsGo lines 0

/-- Exact case-insensitive substring containment against the synonym
lexicon: the first canonical key one of whose terms occurs in the
lowercased title. -/
def subMatch (lt : List Char) : Option String :=
  SEARCH_SPACE.findSome? (fun kv =>
    if kv.2.any (fun t => hasSubL (lowerL (strToL t)) lt) then some kv.1 else none)

/-- The fuzzy matching step when rapidfuzz is available, modelled by an
oracle that returns the pool index of the best match scoring at least 86,
or none; the code then reads the canonical key out of the pool. -/
def fuzzyPick (fz : List Char → Option Nat) (lt : List Char) : Option String :=
  match fz lt with
  | some i => (pool.get? i).map (fun kv => kv.1)
  | none => none

/-- Embedding of map_title_to_canon: numeric hint first, then substring
containment, then the optional fuzzy step. -/
def map_title_to_canon (hasRapid : Bool) (fz : List Char → Option Nat)
    (rawTitle : List Char) (numHint : Option String) : Option String :=
  let lt := stripWS (lowerL rawTitle)
  match (match numHint with
         | some n => NUM_TO_CANON.lookup n
         | none => none) with
  | some c => some c
  | none =>
    match subMatch lt with
    | some c => some c
    | none => if hasRapid then fuzzyPick fz lt else none

/-- The candidate resolution loop of the fuzzy strategy: map each
candidate to a canonical key and keep only the first per key. -/
def dedupCandsGo (hasRapid : Bool) (fz : List Char → Option Nat) :
    List (Nat × List Char × Option String) → List String → List (Nat × String × List Char)
  | [], _ => []
  | (i, t, h) :: rest, seen =>
    match map_title_to_canon hasRapid fz t h with
    | none => dedupCandsGo hasRapid fz rest seen
    | some c =>
      if c ∈ seen then dedupCandsGo hasRapid fz rest seen
      else (i, c, t) :: dedupCandsGo hasRapid fz rest (c :: seen)

/-- Order on header triples by line index, as used by sorted(key=x[0]). -/
def hdrLE (a b : Nat × String × List Char) : Prop := a.1 ≤ b.1

instance : DecidableRel hdrLE := fun a b => by unfold hdrLE; infer_instance

/-- Stable sort of header triples by line index. -/
def sortHdrs (l : List (Nat × String × List Char)) : List (Nat × String × List Char) :=
  List.insertionSort hdrLE l

/-- The header set split_sections_auto settles on: the numbered headers
when at least eight distinct canonical keys were found, the resolved
candidates otherwise. -/
def headersOf (hasRapid : Bool) (fz : List Char → Option Nat)
    (lines : List (List Char)) : List (Nat × String × List Char) :=
  if 8 ≤ (collect_numbered_headers lines).length then
    sortHdrs (collect_numbered_headers lines)
  else
    sortHdrs (dedupCandsGo hasRapid fz (collect_header_candidates lines) [])

/-- The one-shot scanner for the template regex: optional whitespace, one
or two digits, a period, then at least one whitespace character. Returns
the remainder after the greedy trailing whitespace and whether the last
consumed character was a newline. -/
def tryNumDotWs (cs : List Char) : Option (List Char × Bool) :=
  let r1 := cs.dropWhile pyWS
  let ds := r1.takeWhile Char.isDigit
  if 1 ≤ ds.length ∧ ds.length ≤ 2 then
    match r1.drop ds.length with
    | '.' :: r2 =>
      let ws2 := r2.takeWhile pyWS
      if ws2.isEmpty then none
      else some (r2.drop ws2.length, ws2.getLastD ' ' = '\n')
    | _ => none
  else none

/-- The re.findall scan in multiline mode: attempt the pattern at every
line start, counting non-overlapping matches. The fuel equals the input
length, which suffices since every step consumes at least one character. -/
def countNumDotWsGo : Nat → List Char → Bool → Nat
  | 0, _, _ => 0
  | _ + 1, [], _ => 0
  | fuel + 1, c :: rest, atStart =>
    if atStart then
      match tryNumDotWs (c :: rest) with
      | some (r, nl) => 1 + countNumDotWsGo fuel r nl
      | none => countNumDotWsGo fuel rest (c = '\n')
    else countNumDotWsGo fuel rest (c = '\n')

/-- Number of matches of the numbered-line pattern in the raw text. -/
def countNumDotWs (cs : List Char) : Nat := countNumDotWsGo cs.length cs true

/-- Embedding of detect_template: KOSHA branding or at least eight
numbered lines means KOSHA, otherwise VENDOR. -/
def detect_template (text : List Char) : String :=
  let t := upperL text
  let koshaHit := hasSubL (strToL "KOSHA") t || hasSubL (strToL "산업안전보건공단") text
  let numbered := decide (8 ≤ countNumDotWs text)
  if koshaHit || numbered then "KOSHA" else "VENDOR"

/-- Collapse every run of spaces and tabs to one space, as the re.sub in
normalize_lines. -/
def collapseWSGo : Bool → List Char → List Char
  | _, [] => []
  | prev, c :: rest =>
    if c = ' ' ∨ c = '\t' then
      if prev then collapseWSGo true rest else ' ' :: collapseWSGo true rest
    else c :: collapseWSGo false rest

/-- Embedding of normalize_lines: remove carriage returns, split on
newlines, strip each line and collapse internal space runs. -/
def normalizeLines (text : List Char) : List (List Char) :=
  ((text.filter (fun c => c ≠ '\r')).splitOn '\n').map
    (fun ln => collapseWSGo false (stripWS ln))

/-- One value of the sections mapping: original header text, body text,
and the debug fields (canon, source, start line) carried by ordinary
sections but absent from the degenerate sentinel section. -/
structure Sec where
  title : List Char
  text : List Char
  debug : Option (String × String × Nat)
deriving DecidableEq, Repr

/-- Join lines with newlines. -/
def joinLines (ls : List (List Char)) : List Char := List.intercalate ['\n'] ls

/-- The body text of one section: the lines strictly between its header
line and the next accepted header line, with the remainder of a
title-colon-body header line prepended, joined and stripped. -/
def sliceBody (lines : List (List Char)) (startI endI : Nat) (raw : List Char) : List Char :=
  let bodyLines := (lines.drop (startI + 1)).take (endI - (startI + 1))
  let origLine := lines.getD startI []
  let bodyLines :=
    if origLine.contains ':' ∧ startsWithL (lowerL raw) (lowerL origLine) then
      let tl := stripWS ((origLine.dropWhile (fun c => c ≠ ':')).drop 1)
      if tl.isEmpty then bodyLines else tl :: bodyLines
    else bodyLines
  stripWS (joinLines bodyLines)

/-- The slicing loop of split_sections_auto: each accepted header owns the
text up to the next accepted header, the last one up to the end. -/
def buildSections (lines : List (List Char)) :
    List (Nat × String × List Char) → List (String × Sec)
  | [] => []
  | (s, c, raw) :: rest =>
    let endI := match rest with
      | (s2, _, _) :: _ => s2
      | [] => lines.length
    (c, ⟨raw, sliceBody lines s endI raw, some (c, "text", s)⟩) :: buildSections lines rest

/-- Embedding of split_sections_auto: returns the canonical-key-to-section
mapping, the log lines and the template guess. -/
def split_sections_auto (fullText : List Char) (fz : List Char → Option Nat)
    (hasRapid : Bool) : List (String × Sec) × List String × String :=
  let lines := normalizeLines fullText
  let template := detect_template fullText
  let headers := headersOf hasRapid fz lines
  let logs1 :=
    if 8 ≤ (collect_numbered_headers lines).length then
      ["[섹션] 번호형(KOSHA) 헤더 " ++ toString (collect_numbered_headers lines).length ++
        "개 감지 → 번호 기반 매핑을 우선 적용."]
    else
      ["[섹션] 퍼지/키워드 기반 헤더 " ++ toString headers.length ++ "개 감지."]
  if headers.isEmpty then
    ([("other", ⟨strToL "기타", joinLines lines, none⟩)],
     logs1 ++ ["[섹션] 유효 헤더를 찾지 못함 → 전체 본문을 'other'로 반환."],
     template)
  else
    let sections := buildSections lines headers
    (sections,
     logs1 ++
       ["[섹션] 템플릿 추정: " ++ template ++ ". 최종 섹션 수=" ++ toString sections.length,
        "[섹션] 감지 순서: " ++ String.intercalate ", " (headers.map (fun h => h.2.1))],
     template)

/- ## Lemmas about the acquisition loop -/

theorem procPage_page_index {Img : Type} (ocrF : OcrCfg → Img → String)
    (preF : PreCfg → Img → Img) (i : Nat) (p : PageIn Img) :
    (procPage ocrF preF i p).page_index = i := by
  unfold procPage
  split
  · rfl
  · dsimp only
    split
    · rfl
    · rfl

theorem extractPages_get? {Img : Type} (ocrF : OcrCfg → Img → String)
    (preF : PreCfg → Img → Img) :
    ∀ (inputs : List (PageIn Img)) (k i : Nat) (p : PageIn Img),
      inputs.get? i = some p →
      (extractPages ocrF preF k inputs).get? i = some (procPage ocrF preF (k + i) p) := by
  intro inputs
  induction inputs with
  | nil => intro k i p h; simp at h
  | cons q rest ih =>
    intro k i p h
    cases i with
    | zero =>
      simp at h
      subst h
      simp [extractPages]
    | succ j =>
      simp only [List.get?] at h
      have := ih (k + 1) j p h
      simp only [extractPages, List.get?]
      rw [this]
      have harith : k + 1 + j = k + (j + 1) := by omega
      rw [harith]

theorem extractPages_map_index {Img : Type} (ocrF : OcrCfg → Img → String)
    (preF : PreCfg → Img → Img) :
    ∀ (inputs : List (PageIn Img)) (k : Nat),
      (extractPages ocrF preF k inputs).map (fun p => p.page_index) =
        List.range' k inputs.length := by
  intro inputs
  induction inputs with
  | nil => intro k; simp [extractPages]
  | cons q rest ih =>
    intro k
    simp [extractPages, List.range'_succ, procPage_page_index, ih (k + 1)]

/-- C3: for every page whose native text layer has trimmed length at least
40 characters, extract_pdf_text_auto produces a PageResult with source
digital, text equal to the native text, attempts equal to the one-element
list digital-ok, scanned guess false; and the result for that page is the
same whatever the OCR and preprocessing engines do, so OCR is never invoked
for that page. -/
theorem c3_digital_page_accepted {Img : Type}
    (ocrF ocrF2 : OcrCfg → Img → String) (preF preF2 : PreCfg → Img → Img)
    (inputs : List (PageIn Img)) (i : Nat) (p : PageIn Img)
    (hp : inputs.get? i = some p) (hlen : 40 ≤ (pyStrip p.native).length) :
    (extract_pdf_text_auto ocrF preF inputs).pages.get? i =
      some ⟨i, "digital", p.native, false, ["digital ok"]⟩ ∧
    (extract_pdf_text_auto ocrF preF inputs).pages.get? i =
      (extract_pdf_text_auto ocrF2 preF2 inputs).pages.get? i := by
  have hd : hasEnoughText p.native 40 = true := by
    unfold hasEnoughText
    exact decide_eq_true hlen
  have h1 := extractPages_get? ocrF preF inputs 0 i p hp
  have h2 := extractPages_get? ocrF2 preF2 inputs 0 i p hp
  have hz : (0 : Nat) + i = i := Nat.zero_add i
  rw [hz] at h1 h2
  have hpp : ∀ (oF : OcrCfg → Img → String) (pF : PreCfg → Img → Img),
      procPage oF pF i p = ⟨i, "digital", p.native, false, ["digital ok"]⟩ := by
    intro oF pF
    unfold procPage
    rw [hd]
    rfl
  constructor
  · show (extractPages ocrF preF 0 inputs).get? i = _
    rw [h1, hpp]
  · show (extractPages ocrF preF 0 inputs).get? i =
      (extractPages ocrF2 preF2 0 inputs).get? i
    rw [h1, h2, hpp, hpp]

/-- Witness for c3_digital_page_accepted at a concrete one-page input with a
40-character native text layer. -/
theorem c3_digital_page_accepted_witness :
    (extract_pdf_text_auto (fun _ _ => "x") (fun _ (im : Nat) => im)
        [⟨"0123456789012345678901234567890123456789", 0⟩]).pages.get? 0 =
      some ⟨0, "digital", "0123456789012345678901234567890123456789", false,
        ["digital ok"]⟩ :=
  (c3_digital_page_accepted (fun _ _ => "x") (fun _ _ => "y")
    (fun _ (im : Nat) => im) (fun _ (im : Nat) => im)
    [⟨"0123456789012345678901234567890123456789", 0⟩] 0
    ⟨"0123456789012345678901234567890123456789", 0⟩ rfl (by decide)).1

theorem stripWS_eq_rdropWhile (l : List Char) :
    stripWS l = List.rdropWhile pyWS (l.dropWhile pyWS) := rfl

theorem stripWS_idem (cs : List Char) : stripWS (stripWS cs) = stripWS cs := by
  rw [stripWS_eq_rdropWhile, stripWS_eq_rdropWhile]
  have hXid : (cs.dropWhile pyWS).dropWhile pyWS = cs.dropWhile pyWS :=
    List.dropWhile_idempotent pyWS cs
  have h1 : (List.rdropWhile pyWS (cs.dropWhile pyWS)).dropWhile pyWS =
      List.rdropWhile pyWS (cs.dropWhile pyWS) := by
    cases hX : cs.dropWhile pyWS with
    | nil => simp [List.rdropWhile_nil]
    | cons c rest =>
      have hc : pyWS c = false := by
        rw [hX] at hXid
        by_contra hcc
        simp only [Bool.not_eq_false] at hcc
        rw [List.dropWhile_cons_of_pos hcc] at hXid
        have hlen := congrArg List.length hXid
        have hle : (rest.dropWhile pyWS).length ≤ rest.length :=
          (List.dropWhile_suffix pyWS).sublist.length_le
        simp only [List.length_cons] at hlen
        omega
      cases hR : List.rdropWhile pyWS (c :: rest) with
      | nil => simp
      | cons d ds =>
        have hpre : List.rdropWhile pyWS (c :: rest) <+: (c :: rest) :=
          List.rdropWhile_prefix pyWS (c :: rest)
        rw [hR] at hpre
        obtain ⟨t, ht⟩ := hpre
        have hd : d = c := by
          simp only [List.cons_append, List.cons.injEq] at ht
          exact ht.1
        subst hd
        simp [List.dropWhile_cons, hc]
  rw [h1, List.rdropWhile_idempotent]

theorem pyStrip_idem (s : String) : pyStrip (pyStrip s) = pyStrip s := by
  unfold pyStrip
  have : (String.mk (stripWS s.toList)).toList = stripWS s.toList := rfl
  rw [this, stripWS_idem]

/-- C4: for every page whose native text trimmed length is below 40, OCR is
invoked with the first configuration (psm 6, oem 3); exactly when that
output's trimmed length is below 10, a single second attempt runs the second
configuration (psm 4, oem 3) on the image preprocessed with scale 9/5,
Gaussian blur kernel 3 and adaptive thresholding; the attempts list has
length one or two and the page terminates with source ocr and the last
attempt's trimmed text. -/
theorem c4_ocr_ladder {Img : Type} (ocrF : OcrCfg → Img → String)
    (preF : PreCfg → Img → Img) (inputs : List (PageIn Img)) (i : Nat)
    (p : PageIn Img) (hp : inputs.get? i = some p)
    (hlen : (pyStrip p.native).length < 40) :
    (extract_pdf_text_auto ocrF preF inputs).pages.get? i =
      some (if 10 ≤ (pyStrip (ocrF ⟨6, 3⟩ p.img)).length then
          ⟨i, "ocr", pyStrip (ocrF ⟨6, 3⟩ p.img), true, ["ocr psm6 oem3 adaptive"]⟩
        else
          ⟨i, "ocr",
            pyStrip (ocrF ⟨4, 3⟩ (preF ⟨(9 : ℚ) / 5, 3, true, 31, 10⟩ p.img)),
            true, ["ocr psm6 oem3 adaptive", "ocr psm4 oem3 adaptive+resize"]⟩) := by
  have hd : hasEnoughText p.native 40 = false := by
    unfold hasEnoughText
    exact decide_eq_false (by omega)
  have h1 := extractPages_get? ocrF preF inputs 0 i p hp
  have hz : (0 : Nat) + i = i := Nat.zero_add i
  rw [hz] at h1
  show (extractPages ocrF preF 0 inputs).get? i = _
  rw [h1]
  unfold procPage
  rw [hd]
  by_cases hc : 10 ≤ (pyStrip (ocrF ⟨6, 3⟩ p.img)).length
  · have hb : hasEnoughText (pyStrip (ocrF ⟨6, 3⟩ p.img)) 10 = true := by
      unfold hasEnoughText
      rw [pyStrip_idem]
      exact decide_eq_true hc
    simp [hb, hc]
  · have hb : hasEnoughText (pyStrip (ocrF ⟨6, 3⟩ p.img)) 10 = false := by
      unfold hasEnoughText
      rw [pyStrip_idem]
      exact decide_eq_false hc
    simp [hb, hc]

/-- Witness for c4_ocr_ladder at a concrete page with empty native text,
a first OCR output of trimmed length five, and a distinct second output. -/
theorem c4_ocr_ladder_witness :
    (extract_pdf_text_auto
        (fun (cfg : OcrCfg) (_ : Nat) => if cfg.psm = 6 then "short" else "second attempt text")
        (fun _ im => im) [⟨"", 0⟩]).pages.get? 0 =
      some ⟨0, "ocr", "second attempt text", true,
        ["ocr psm6 oem3 adaptive", "ocr psm4 oem3 adaptive+resize"]⟩ := by
  have h := c4_ocr_ladder
    (fun (cfg : OcrCfg) (_ : Nat) => if cfg.psm = 6 then "short" else "second attempt text")
    (fun _ im => im) [⟨"", 0⟩] 0 ⟨"", 0⟩ rfl (by decide)
  rw [h]
  decide

/-- C8: for every input document, extract_pdf_text_auto returns exactly one
PageResult per input page in page-index order, and merged_text equals the
concatenation of all page texts in page order separated by blank lines;
the embedding is a total function, so acquisition of an individual page
cannot abort the document. -/
theorem c8_one_result_per_page {Img : Type} (ocrF : OcrCfg → Img → String)
    (preF : PreCfg → Img → Img) (inputs : List (PageIn Img)) :
    (extract_pdf_text_auto ocrF preF inputs).pages.map (fun p => p.page_index) =
      List.range inputs.length ∧
    (extract_pdf_text_auto ocrF preF inputs).pages.length = inputs.length ∧
    (extract_pdf_text_auto ocrF preF inputs).merged_text =
      String.intercalate "\n\n"
        ((extract_pdf_text_auto ocrF preF inputs).pages.map (fun p => p.text)) := by
  have hmap := extractPages_map_index ocrF preF inputs 0
  refine ⟨?_, ?_, rfl⟩
  · rw [List.range_eq_range']
    exact hmap
  · have := congrArg List.length hmap
    simpa using this

/- ## Lemmas about column detection -/

theorem colIdxGo_le (cuts : List ℚ) (x : ℚ) : colIdxGo cuts x ≤ cuts.length := by
  induction cuts with
  | nil => simp [colIdxGo]
  | cons c cs ih =>
    by_cases h : c < x <;> simp [colIdxGo, h] <;> omega

theorem join_filter_nonempty {α : Type} (L : List (List α)) :
    (L.filter (fun c => !c.isEmpty)).join = L.join := by
  induction L with
  | nil => rfl
  | cons c L ih =>
    cases c with
    | nil => simpa [List.filter_cons] using ih
    | cons a t => simp [List.filter_cons, ih]

theorem bucket_insert {α : Type} (x : α) (g : Nat → List α) (j₀ : Nat) :
    ∀ J : List Nat, J.Nodup → j₀ ∈ J →
      Perm ((J.map (fun j => if j₀ = j then x :: g j else g j)).join) (x :: (J.map g).join) := by
  intro J
  induction J with
  | nil => intro _ h; simp at h
  | cons a J ih =>
    intro hnd hmem
    by_cases he : j₀ = a
    · subst he
      have hnotin : j₀ ∉ J := (List.nodup_cons.mp hnd).1
      have hcongr : J.map (fun j => if j₀ = j then x :: g j else g j) = J.map g := by
        apply List.map_congr_left
        intro b hb
        have hne : j₀ ≠ b := fun hc => hnotin (hc ▸ hb)
        simp [hne]
      simp [hcongr]
    · have hmem' : j₀ ∈ J := by
        rcases List.mem_cons.mp hmem with h | h
        · exact absurd h he
        · exact h
      have hnd' : J.Nodup := (List.nodup_cons.mp hnd).2
      have ihh := ih hnd' hmem'
      simp only [List.map_cons, List.join_cons, if_neg he]
      exact (ihh.append_left (g a)).trans List.perm_middle

theorem bucket_perm {α : Type} (f : α → Nat) :
    ∀ (l : List α) (n : Nat), (∀ x ∈ l, f x < n) →
      Perm (((List.range n).map (fun j => l.filter (fun x => decide (f x = j)))).join) l := by
  intro l
  induction l with
  | nil => intro n _; simp
  | cons x xs ih =>
    intro n h
    have hx : f x < n := h x (by simp)
    have hxs : ∀ y ∈ xs, f y < n := fun y hy => h y (List.mem_cons_of_mem _ hy)
    have hstep : (List.range n).map (fun j => (x :: xs).filter (fun y => decide (f y = j))) =
        (List.range n).map (fun j =>
          if f x = j then x :: xs.filter (fun y => decide (f y = j))
          else xs.filter (fun y => decide (f y = j))) := by
      apply List.map_congr_left
      intro j _
      by_cases hfe : f x = j
      · simp [List.filter_cons, hfe]
      · simp [List.filter_cons, hfe]
    rw [hstep]
    have hb := bucket_insert x (fun j => xs.filter (fun y => decide (f y = j))) (f x)
      (List.range n) (List.nodup_range n) (List.mem_range.mpr hx)
    exact hb.trans ((ih n hxs).cons x)

instance keyLE_isTotal (ytol : ℚ) : IsTotal Token (keyLE ytol) := by
  constructor
  intro a b
  unfold keyLE
  rcases lt_trichotomy (rkey ytol a).1 (rkey ytol b).1 with h | h | h
  · exact Or.inl (Or.inl h)
  · rcases le_total (rkey ytol a).2 (rkey ytol b).2 with h2 | h2
    · exact Or.inl (Or.inr ⟨h, h2⟩)
    · exact Or.inr (Or.inr ⟨h.symm, h2⟩)
  · exact Or.inr (Or.inl h)

instance keyLE_isTrans (ytol : ℚ) : IsTrans Token (keyLE ytol) := by
  constructor
  intro a b c hab hbc
  unfold keyLE at hab hbc ⊢
  rcases hab with h1 | ⟨h1, h1x⟩ <;> rcases hbc with h2 | ⟨h2, h2x⟩
  · exact Or.inl (lt_trans h1 h2)
  · exact Or.inl (h2 ▸ h1)
  · exact Or.inl (h1 ▸ h2)
  · exact Or.inr ⟨h1.trans h2, le_trans h1x h2x⟩

/-- C10: for every nonempty token list, detect_columns returns a partition
of its input: joining the returned column groups is a permutation of the
input tokens, so no token is duplicated or dropped, whatever number of cut
lines is chosen. -/
theorem c10_detect_columns_partition (words : List Token) (h : words ≠ []) :
    Perm (detect_columns words).join words := by
  unfold detect_columns
  have hne : ¬(words.isEmpty = true) := by
    cases words with
    | nil => exact absurd rfl h
    | cons a l => simp
  rw [if_neg hne]
  by_cases hbig : (bigOf words).isEmpty = true
  · rw [if_pos hbig]
    simp
  · rw [if_neg hbig]
    by_cases hflt : (colsOf words).filter (fun c => !c.isEmpty) = []
    · rw [if_pos hflt]
      simp
    · rw [if_neg hflt]
      rw [join_filter_nonempty]
      unfold colsOf
      exact bucket_perm (fun w => colIdxGo (cutsOf words) w.x0) words
        ((cutsOf words).length + 1)
        (fun w _ => Nat.lt_succ_of_le (colIdxGo_le (cutsOf words) w.x0))

/-- C7: column boundary candidates are exactly the gaps between adjacent
distinct left edges that exceed six median token heights; at most two cut
lines are chosen, so at most three column groups are returned; when no gap
exceeds the threshold all tokens remain in one column; when exactly one
candidate exists the tokens are split into the group left of the midpoint
and the group right of it; and each column group is sorted top to bottom
then left to right, as a permutation of itself, before rows are emitted. -/
theorem c7_column_splitting (words : List Token) :
    (∀ g, g ∈ bigOf words ↔ g ∈ gapsOf (xsOf words) ∧ hMedOf words * 6 < (g.1 : ℚ)) ∧
    (detect_columns words).length ≤ 3 ∧
    (bigOf words = [] → detect_columns words = [words]) ∧
    (∀ d xL xR w₁ w₂, bigOf words = [(d, xL, xR)] → w₁ ∈ words → w₂ ∈ words →
      w₁.x0 ≤ ((xL : ℚ) + (xR : ℚ)) / 2 → ((xL : ℚ) + (xR : ℚ)) / 2 < w₂.x0 →
      detect_columns words =
        [words.filter (fun w => decide (w.x0 ≤ ((xL : ℚ) + (xR : ℚ)) / 2)),
         words.filter (fun w => decide (((xL : ℚ) + (xR : ℚ)) / 2 < w.x0))]) ∧
    (∀ ytol col, Perm (sortCol ytol col) col ∧ (sortCol ytol col).Sorted (keyLE ytol)) := by
  refine ⟨?_, ?_, ?_, ?_, ?_⟩
  · intro g
    unfold bigOf
    simp [List.mem_filter]
  · unfold detect_columns
    by_cases h1 : words.isEmpty = true
    · rw [if_pos h1]; simp
    · rw [if_neg h1]
      by_cases h2 : (bigOf words).isEmpty = true
      · rw [if_pos h2]; simp
      · rw [if_neg h2]
        by_cases h3 : (colsOf words).filter (fun c => !c.isEmpty) = []
        · rw [if_pos h3]; simp
        · rw [if_neg h3]
          have hlen : (colsOf words).length ≤ 3 := by
            unfold colsOf
            rw [List.length_map, List.length_range]
            have : (cutsOf words).length ≤ 2 := by
              unfold cutsOf
              rw [List.length_insertionSort, List.length_map]
              exact le_trans (List.length_take_le 2 _) (le_refl 2)
            omega
          exact le_trans (List.length_filter_le _ _) hlen
  · intro hb
    unfold detect_columns
    by_cases h1 : words.isEmpty = true
    · rw [if_pos h1]
    · rw [if_neg h1, if_pos (by rw [hb]; rfl)]
  · intro d xL xR w₁ w₂ hb hw₁ hw₂ hx₁ hx₂
    have hcuts : cutsOf words = [((xL : ℚ) + (xR : ℚ)) / 2] := by
      unfold cutsOf sortGapsDesc
      rw [hb]
      rfl
    have hidx : ∀ x : ℚ, colIdxGo [((xL : ℚ) + (xR : ℚ)) / 2] x =
        if ((xL : ℚ) + (xR : ℚ)) / 2 < x then 1 else 0 := by
      intro x
      by_cases hc : ((xL : ℚ) + (xR : ℚ)) / 2 < x <;> simp [colIdxGo, hc]
    have hcols : colsOf words =
        [words.filter (fun w => decide (w.x0 ≤ ((xL : ℚ) + (xR : ℚ)) / 2)),
         words.filter (fun w => decide (((xL : ℚ) + (xR : ℚ)) / 2 < w.x0))] := by
      unfold colsOf
      rw [hcuts]
      simp only [List.length_singleton]
      rw [show List.range 2 = [0, 1] from rfl]
      simp only [List.map_cons, List.map_nil]
      congr 1
      · apply List.filter_congr
        intro w _
        rw [hidx w.x0]
        by_cases hc : ((xL : ℚ) + (xR : ℚ)) / 2 < w.x0
        · simp [hc, not_le.mpr hc]
        · simp [hc, not_lt.mp hc]
      · congr 1
        apply List.filter_congr
        intro w _
        rw [hidx w.x0]
        by_cases hc : ((xL : ℚ) + (xR : ℚ)) / 2 < w.x0
        · simp [hc]
        · simp [hc]
    have hA : w₁ ∈ words.filter (fun w => decide (w.x0 ≤ ((xL : ℚ) + (xR : ℚ)) / 2)) :=
      List.mem_filter.mpr ⟨hw₁, by simpa using hx₁⟩
    have hB : w₂ ∈ words.filter (fun w => decide (((xL : ℚ) + (xR : ℚ)) / 2 < w.x0)) :=
      List.mem_filter.mpr ⟨hw₂, by simpa using hx₂⟩
    have hAne : (words.filter (fun w => decide (w.x0 ≤ ((xL : ℚ) + (xR : ℚ)) / 2))).isEmpty = false := by
      cases hc : words.filter (fun w => decide (w.x0 ≤ ((xL : ℚ) + (xR : ℚ)) / 2)) with
      | nil => rw [hc] at hA; simp at hA
      | cons a t => simp
    have hBne : (words.filter (fun w => decide (((xL : ℚ) + (xR : ℚ)) / 2 < w.x0))).isEmpty = false := by
      cases hc : words.filter (fun w => decide (((xL : ℚ) + (xR : ℚ)) / 2 < w.x0)) with
      | nil => rw [hc] at hB; simp at hB
      | cons a t => simp
    have hfilter : (colsOf words).filter (fun c => !c.isEmpty) =
        [words.filter (fun w => decide (w.x0 ≤ ((xL : ℚ) + (xR : ℚ)) / 2)),
         words.filter (fun w => decide (((xL : ℚ) + (xR : ℚ)) / 2 < w.x0))] := by
      rw [hcols]
      simp [List.filter_cons, hAne, hBne]
    unfold detect_columns
    have h1 : words.isEmpty = false := by
      cases hw : words with
      | nil => rw [hw] at hw₁; simp at hw₁
      | cons a t => simp
    rw [if_neg (by rw [h1]; simp)]
    rw [if_neg (by rw [hb]; simp)]
    rw [if_neg (by rw [hfilter]; simp), hfilter]
  · intro ytol col
    exact ⟨List.perm_insertionSort (keyLE ytol) col,
      List.sorted_insertionSort (keyLE ytol) col⟩

/- ## Lemmas about the section splitter -/

theorem lookup_mem {β : Type} (l : List (String × β)) (a : String) (b : β)
    (h : l.lookup a = some b) : b ∈ l.map Prod.snd := by
  induction l with
  | nil => simp [List.lookup] at h
  | cons kv rest ih =>
    rw [List.lookup] at h
    by_cases he : a == kv.1
    · rw [show (a == kv.1) = true from he] at h
      simp only [Option.some.injEq] at h
      simp [← h]
    · rw [show (a == kv.1) = false from by simpa using he] at h
      simp [ih h]

theorem numToCanon_mem (n : String) (c : String)
    (h : NUM_TO_CANON.lookup n = some c) : c ∈ canonKeys := by
  have hsub : ∀ x ∈ NUM_TO_CANON.map Prod.snd, x ∈ canonKeys := by decide
  exact hsub c (lookup_mem NUM_TO_CANON n c h)

theorem buildSearchSpace_fst (base : List (String × List String)) :
    (buildSearchSpace base).map Prod.fst = base.map Prod.fst := by
  simp [buildSearchSpace, List.map_map, Function.comp]

theorem searchSpace_fst : SEARCH_SPACE.map Prod.fst = canonKeys := by
  rw [show SEARCH_SPACE = buildSearchSpace BASE_SYNONYMS from rfl, buildSearchSpace_fst]
  rfl

theorem subMatch_mem (lt : List Char) (c : String) (h : subMatch lt = some c) :
    c ∈ canonKeys := by
  unfold subMatch at h
  obtain ⟨kv, hkv, hf⟩ := List.exists_of_findSome?_eq_some h
  have hc : c = kv.1 := by
    by_cases hb : kv.2.any (fun t => hasSubL (lowerL (strToL t)) lt)
    · rw [if_pos hb] at hf
      exact (Option.some.injEq _ _ ▸ hf).symm
    · rw [if_neg hb] at hf
      exact absurd hf (by simp)
  rw [hc, ← searchSpace_fst]
  exact List.mem_map_of_mem Prod.fst hkv

theorem fuzzyPick_mem (fz : List Char → Option Nat) (lt : List Char) (c : String)
    (h : fuzzyPick fz lt = some c) : c ∈ canonKeys := by
  unfold fuzzyPick at h
  cases hi : fz lt with
  | none => rw [hi] at h; simp at h
  | some i =>
    rw [hi] at h
    dsimp only at h
    cases hg : pool.get? i with
    | none => rw [hg] at h; simp at h
    | some kv =>
      rw [hg] at h
      simp at h
      have hmem : kv ∈ pool := List.get?_mem hg
      unfold pool at hmem
      rw [List.mem_flatMap] at hmem
      obtain ⟨entry, hentry, hkv⟩ := hmem
      rw [List.mem_map] at hkv
      obtain ⟨t, _, ht⟩ := hkv
      have : kv.1 = entry.1 := by rw [← ht]
      rw [← h, this, ← searchSpace_fst]
      exact List.mem_map_of_mem Prod.fst hentry

theorem mapTitle_range (hasRapid : Bool) (fz : List Char → Option Nat)
    (t : List Char) (hint : Option String) (c : String)
    (h : map_title_to_canon hasRapid fz t hint = some c) : c ∈ canonKeys := by
  unfold map_title_to_canon at h
  cases hh : (match hint with
              | some n => NUM_TO_CANON.lookup n
              | none => none) with
  | some c0 =>
    rw [hh] at h
    dsimp only at h
    simp at h
    subst h
    cases hint with
    | none => simp at hh
    | some n => exact numToCanon_mem n c0 hh
  | none =>
    rw [hh] at h
    dsimp only at h
    cases hs : subMatch (stripWS (lowerL t)) with
    | some c1 =>
      rw [hs] at h
      simp at h
      subst h
      exact subMatch_mem _ c1 hs
    | none =>
      rw [hs] at h
      cases hasRapid with
      | false => simp at h
      | true =>
        simp at h
        exact fuzzyPick_mem fz _ c h

theorem collectNumGo_notin_seen :
    ∀ (lines : List (List Char)) (i : Nat) (seen : List String),
      ∀ e ∈ collectNumGo lines i seen, e.2.1 ∉ seen := by
  intro lines
  induction lines with
  | nil => intro i seen e he; simp [collectNumGo] at he
  | cons ln rest ih =>
    intro i seen e he
    simp only [collectNumGo] at he
    cases hp : parseKosha ln with
    | none =>
      rw [hp] at he
      exact ih _ _ e he
    | some nt =>
      obtain ⟨num, title⟩ := nt
      rw [hp] at he
      dsimp only at he
      cases hl : NUM_TO_CANON.lookup num with
      | none =>
        rw [hl] at he
        exact ih _ _ e he
      | some c =>
        rw [hl] at he
        dsimp only at he
        by_cases hc : c ∈ seen
        · rw [if_pos hc] at he
          exact ih _ _ e he
        · rw [if_neg hc] at he
          rcases List.mem_cons.mp he with h | h
          · subst h; simpa using hc
          · have hni := ih _ _ e h
            intro hmem
            exact hni (List.mem_cons_of_mem _ hmem)

theorem collectNumGo_canon_mem :
    ∀ (lines : List (List Char)) (i : Nat) (seen : List String),
      ∀ e ∈ collectNumGo lines i seen, e.2.1 ∈ canonKeys := by
  intro lines
  induction lines with
  | nil => intro i seen e he; simp [collectNumGo] at he
  | cons ln rest ih =>
    intro i seen e he
    simp only [collectNumGo] at he
    cases hp : parseKosha ln with
    | none =>
      rw [hp] at he
      exact ih _ _ e he
    | some nt =>
      obtain ⟨num, title⟩ := nt
      rw [hp] at he
      dsimp only at he
      cases hl : NUM_TO_CANON.lookup num with
      | none =>
        rw [hl] at he
        exact ih _ _ e he
      | some c =>
        rw [hl] at he
        dsimp only at he
        by_cases hc : c ∈ seen
        · rw [if_pos hc] at he
          exact ih _ _ e he
        · rw [if_neg hc] at he
          rcases List.mem_cons.mp he with h | h
          · subst h
            exact numToCanon_mem num c hl
          · exact ih _ _ e h

theorem collectNumGo_nodup :
    ∀ (lines : List (List Char)) (i : Nat) (seen : List String),
      ((collectNumGo lines i seen).map (fun e => e.2.1)).Nodup := by
  intro lines
  induction lines with
  | nil => intro i seen; simp [collectNumGo]
  | cons ln rest ih =>
    intro i seen
    simp only [collectNumGo]
    cases hp : parseKosha ln with
    | none => exact ih _ _
    | some nt =>
      obtain ⟨num, title⟩ := nt
      dsimp only
      cases hl : NUM_TO_CANON.lookup num with
      | none => exact ih _ _
      | some c =>
        dsimp only
        by_cases hc : c ∈ seen
        · rw [if_pos hc]
          exact ih _ _
        · rw [if_neg hc]
          rw [List.map_cons, List.nodup_cons]
          constructor
          · intro hmem
            rw [List.mem_map] at hmem
            obtain ⟨e, he, hfe⟩ := hmem
            have := collectNumGo_notin_seen rest (i + 1) (c :: seen) e he
            rw [hfe] at this
            exact this (List.mem_cons_self c seen)
          · exact ih _ _

theorem collectNumGo_first :
    ∀ (lines : List (List Char)) (k : Nat) (seen : List String)
      (i : Nat) (c : String) (r : List Char) (j : Nat) (ln : List Char)
      (num : String) (title : List Char),
      (i, c, r) ∈ collectNumGo lines k seen →
      lines.get? j = some ln → parseKosha ln = some (num, title) →
      NUM_TO_CANON.lookup num = some c → i ≤ k + j := by
  intro lines
  induction lines with
  | nil => intro k seen i c r j ln num title hmem; simp [collectNumGo] at hmem
  | cons ln0 rest ih =>
    intro k seen i c r j ln num title hmem hget hparse hlook
    simp only [collectNumGo] at hmem
    cases hp : parseKosha ln0 with
    | none =>
      rw [hp] at hmem
      cases j with
      | zero =>
        simp at hget
        subst hget
        rw [hp] at hparse
        exact absurd hparse (by simp)
      | succ j2 =>
        simp only [List.get?] at hget
        have := ih (k + 1) seen i c r j2 ln num title hmem hget hparse hlook
        omega
    | some nt =>
      obtain ⟨num0, t0⟩ := nt
      rw [hp] at hmem
      dsimp only at hmem
      cases hl : NUM_TO_CANON.lookup num0 with
      | none =>
        rw [hl] at hmem
        cases j with
        | zero =>
          simp at hget
          subst hget
          rw [hp] at hparse
          simp at hparse
          obtain ⟨hn, _⟩ := hparse
          rw [← hn] at hlook
          rw [hl] at hlook
          exact absurd hlook (by simp)
        | succ j2 =>
          simp only [List.get?] at hget
          have := ih (k + 1) seen i c r j2 ln num title hmem hget hparse hlook
          omega
      | some c0 =>
        rw [hl] at hmem
        dsimp only at hmem
        by_cases hc : c0 ∈ seen
        · rw [if_pos hc] at hmem
          cases j with
          | zero =>
            simp at hget
            subst hget
            rw [hp] at hparse
            simp at hparse
            obtain ⟨hn, _⟩ := hparse
            rw [← hn] at hlook
            rw [hl] at hlook
            simp at hlook
            subst hlook
            have hnotin := collectNumGo_notin_seen rest (k + 1) seen _ hmem
            exact absurd hc (by simpa using hnotin)
          | succ j2 =>
            simp only [List.get?] at hget
            have := ih (k + 1) seen i c r j2 ln num title hmem hget hparse hlook
            omega
        · rw [if_neg hc] at hmem
          rcases List.mem_cons.mp hmem with h | h
          · have hi : i = k := by
              have := congrArg Prod.fst h
              simpa using this
            omega
          · cases j with
            | zero =>
              simp at hget
              subst hget
              rw [hp] at hparse
              simp at hparse
              obtain ⟨hn, _⟩ := hparse
              rw [← hn] at hlook
              rw [hl] at hlook
              simp at hlook
              have hnotin := collectNumGo_notin_seen rest (k + 1) (c0 :: seen) _ h
              rw [hlook] at hnotin
              exact absurd (List.mem_cons_self c seen) (by rw [← hlook]; simpa using hnotin)
            | succ j2 =>
              simp only [List.get?] at hget
              have := ih (k + 1) (c0 :: seen) i c r j2 ln num title h hget hparse hlook
              omega

theorem collectCandsGo_cons (ln : List Char) (rest : List (List Char)) (i : Nat) :
    collectCandsGo (ln :: rest) i = collectCandsGo rest (i + 1) ∨
    ∃ t h, collectCandsGo (ln :: rest) i = (i, t, h) :: collectCandsGo rest (i + 1) := by
  simp only [collectCandsGo]
  cases hp : parseKosha ln with
  | some nt =>
    obtain ⟨num, t⟩ := nt
    right
    exact ⟨_, _, rfl⟩
  | none =>
    dsimp only
    by_cases h1 : ln.contains ':' = true
    · rw [if_pos h1]
      by_cases h2 : isShortTitle (stripWS (ln.takeWhile (fun c => c ≠ ':'))) = true
      · rw [if_pos h2]
        right
        exact ⟨_, _, rfl⟩
      · rw [if_neg h2]
        by_cases h3 : isShortTitle ln = true
        · rw [if_pos h3]
          right
          exact ⟨_, _, rfl⟩
        · rw [if_neg h3]
          left
          rfl
    · rw [if_neg h1]
      by_cases h3 : isShortTitle ln = true
      · rw [if_pos h3]
        right
        exact ⟨_, _, rfl⟩
      · rw [if_neg h3]
        left
        rfl

theorem collectCandsGo_lb :
    ∀ (lines : List (List Char)) (i : Nat), ∀ e ∈ collectCandsGo lines i, i ≤ e.1 := by
  intro lines
  induction lines with
  | nil => intro i e he; simp [collectCandsGo] at he
  | cons ln rest ih =>
    intro i e he
    rcases collectCandsGo_cons ln rest i with hc | ⟨t, h, hc⟩
    · rw [hc] at he
      have := ih (i + 1) e he
      omega
    · rw [hc] at he
      rcases List.mem_cons.mp he with h1 | h1
      · subst h1; simp
      · have := ih (i + 1) e h1
        omega

theorem collectCandsGo_pairwise :
    ∀ (lines : List (List Char)) (i : Nat),
      (collectCandsGo lines i).Pairwise (fun a b => a.1 < b.1) := by
  intro lines
  induction lines with
  | nil => intro i; simp [collectCandsGo]
  | cons ln rest ih =>
    intro i
    rcases collectCandsGo_cons ln rest i with hc | ⟨t, h, hc⟩
    · rw [hc]
      exact ih (i + 1)
    · rw [hc]
      rw [List.pairwise_cons]
      constructor
      · intro b hb
        have := collectCandsGo_lb rest (i + 1) b hb
        simpa using by omega
      · exact ih (i + 1)

theorem dedupCandsGo_notin_seen (hasRapid : Bool) (fz : List Char → Option Nat) :
    ∀ (cands : List (Nat × List Char × Option String)) (seen : List String),
      ∀ e ∈ dedupCandsGo hasRapid fz cands seen, e.2.1 ∉ seen := by
  intro cands
  induction cands with
  | nil => intro seen e he; simp [dedupCandsGo] at he
  | cons cand rest ih =>
    intro seen e he
    obtain ⟨i, t, h⟩ := cand
    simp only [dedupCandsGo] at he
    cases hm : map_title_to_canon hasRapid fz t h with
    | none =>
      rw [hm] at he
      exact ih _ e he
    | some c =>
      rw [hm] at he
      dsimp only at he
      by_cases hc : c ∈ seen
      · rw [if_pos hc] at he
        exact ih _ e he
      · rw [if_neg hc] at he
        rcases List.mem_cons.mp he with h1 | h1
        · subst h1; simpa using hc
        · have hni := ih _ e h1
          intro hmem
          exact hni (List.mem_cons_of_mem _ hmem)

theorem dedupCandsGo_canon_mem (hasRapid : Bool) (fz : List Char → Option Nat) :
    ∀ (cands : List (Nat × List Char × Option String)) (seen : List String),
      ∀ e ∈ dedupCandsGo hasRapid fz cands seen, e.2.1 ∈ canonKeys := by
  intro cands
  induction cands with
  | nil => intro seen e he; simp [dedupCandsGo] at he
  | cons cand rest ih =>
    intro seen e he
    obtain ⟨i, t, h⟩ := cand
    simp only [dedupCandsGo] at he
    cases hm : map_title_to_canon hasRapid fz t h with
    | none =>
      rw [hm] at he
      exact ih _ e he
    | some c =>
      rw [hm] at he
      dsimp only at he
      by_cases hc : c ∈ seen
      · rw [if_pos hc] at he
        exact ih _ e he
      · rw [if_neg hc] at he
        rcases List.mem_cons.mp he with h1 | h1
        · subst h1
          exact mapTitle_range hasRapid fz t h c hm
        · exact ih _ e h1

theorem dedupCandsGo_nodup (hasRapid : Bool) (fz : List Char → Option Nat) :
    ∀ (cands : List (Nat × List Char × Option String)) (seen : List String),
      ((dedupCandsGo hasRapid fz cands seen).map (fun e => e.2.1)).Nodup := by
  intro cands
  induction cands with
  | nil => intro seen; simp [dedupCandsGo]
  | cons cand rest ih =>
    intro seen
    obtain ⟨i, t, h⟩ := cand
    simp only [dedupCandsGo]
    cases hm : map_title_to_canon hasRapid fz t h with
    | none => exact ih _
    | some c =>
      dsimp only
      by_cases hc : c ∈ seen
      · rw [if_pos hc]
        exact ih _
      · rw [if_neg hc]
        rw [List.map_cons, List.nodup_cons]
        constructor
        · intro hmem
          rw [List.mem_map] at hmem
          obtain ⟨e, he, hfe⟩ := hmem
          have := dedupCandsGo_notin_seen hasRapid fz rest (c :: seen) e he
          rw [hfe] at this
          exact this (List.mem_cons_self c seen)
        · exact ih _

theorem dedupCandsGo_first (hasRapid : Bool) (fz : List Char → Option Nat) :
    ∀ (cands : List (Nat × List Char × Option String)) (seen : List String),
      cands.Pairwise (fun a b => a.1 < b.1) →
      ∀ i c r, (i, c, r) ∈ dedupCandsGo hasRapid fz cands seen →
      ∀ j t h, (j, t, h) ∈ cands →
      map_title_to_canon hasRapid fz t h = some c → i ≤ j := by
  intro cands
  induction cands with
  | nil => intro seen _ i c r hmem; simp [dedupCandsGo] at hmem
  | cons cand rest ih =>
    intro seen hpw i c r hmem j t h hjt hmap
    obtain ⟨i0, t0, h0⟩ := cand
    have hpw2 := (List.pairwise_cons.mp hpw).2
    have hlt := (List.pairwise_cons.mp hpw).1
    simp only [dedupCandsGo] at hmem
    cases hm : map_title_to_canon hasRapid fz t0 h0 with
    | none =>
      rw [hm] at hmem
      rcases List.mem_cons.mp hjt with h1 | h1
      · exfalso
        have ht : t = t0 ∧ h = h0 := by
          have := h1
          simp at this
          exact ⟨this.2.1, this.2.2⟩
        rw [ht.1, ht.2] at hmap
        rw [hm] at hmap
        exact absurd hmap (by simp)
      · exact ih seen hpw2 i c r hmem j t h h1 hmap
    | some c0 =>
      rw [hm] at hmem
      dsimp only at hmem
      by_cases hc : c0 ∈ seen
      · rw [if_pos hc] at hmem
        rcases List.mem_cons.mp hjt with h1 | h1
        · exfalso
          have ht : t = t0 ∧ h = h0 := by
            have := h1
            simp at this
            exact ⟨this.2.1, this.2.2⟩
          rw [ht.1, ht.2] at hmap
          rw [hm] at hmap
          simp at hmap
          have hni := dedupCandsGo_notin_seen hasRapid fz rest seen _ hmem
          rw [hmap] at hc
          exact absurd hc (by simpa using hni)
        · exact ih seen hpw2 i c r hmem j t h h1 hmap
      · rw [if_neg hc] at hmem
        rcases List.mem_cons.mp hmem with h2 | h2
        · have hie : i = i0 := by
            have := congrArg Prod.fst h2
            simpa using this
          rcases List.mem_cons.mp hjt with h1 | h1
          · have hje : j = i0 := by
              have := congrArg Prod.fst h1
              simpa using this
            omega
          · have := hlt (j, t, h) h1
            simp at this
            omega
        · rcases List.mem_cons.mp hjt with h1 | h1
          · exfalso
            have ht : t = t0 ∧ h = h0 := by
              have := h1
              simp at this
              exact ⟨this.2.1, this.2.2⟩
            rw [ht.1, ht.2] at hmap
            rw [hm] at hmap
            simp at hmap
            have hni := dedupCandsGo_notin_seen hasRapid fz rest (c0 :: seen) _ h2
            rw [hmap] at hni
            exact absurd (List.mem_cons_self c seen) (by simpa using hni)
          · exact ih (c0 :: seen) hpw2 i c r h2 j t h h1 hmap

instance : IsTotal (Nat × String × List Char) hdrLE :=
  ⟨fun a b => Nat.le_total a.1 b.1⟩

instance : IsTrans (Nat × String × List Char) hdrLE :=
  ⟨fun _ _ _ hab hbc => Nat.le_trans hab hbc⟩

theorem headersOf_canon_mem (hasRapid : Bool) (fz : List Char → Option Nat)
    (lines : List (List Char)) :
    ∀ e ∈ headersOf hasRapid fz lines, e.2.1 ∈ canonKeys := by
  intro e he
  unfold headersOf sortHdrs at he
  by_cases h8 : 8 ≤ (collect_numbered_headers lines).length
  · rw [if_pos h8] at he
    have hp := List.perm_insertionSort hdrLE (collect_numbered_headers lines)
    exact collectNumGo_canon_mem lines 0 [] e (hp.mem_iff.mp he)
  · rw [if_neg h8] at he
    have hp := List.perm_insertionSort hdrLE
      (dedupCandsGo hasRapid fz (collect_header_candidates lines) [])
    exact dedupCandsGo_canon_mem hasRapid fz (collect_header_candidates lines) [] e
      (hp.mem_iff.mp he)

theorem headersOf_nodup (hasRapid : Bool) (fz : List Char → Option Nat)
    (lines : List (List Char)) :
    ((headersOf hasRapid fz lines).map (fun e => e.2.1)).Nodup := by
  unfold headersOf sortHdrs
  by_cases h8 : 8 ≤ (collect_numbered_headers lines).length
  · rw [if_pos h8]
    have hp := (List.perm_insertionSort hdrLE (collect_numbered_headers lines)).map
      (fun e => e.2.1)
    exact hp.nodup_iff.mpr (collectNumGo_nodup lines 0 [])
  · rw [if_neg h8]
    have hp := (List.perm_insertionSort hdrLE
      (dedupCandsGo hasRapid fz (collect_header_candidates lines) [])).map
      (fun e => e.2.1)
    exact hp.nodup_iff.mpr (dedupCandsGo_nodup hasRapid fz (collect_header_candidates lines) [])

theorem split_sections_eq (fullText : List Char) (fz : List Char → Option Nat)
    (hasRapid : Bool) :
    (split_sections_auto fullText fz hasRapid).1 =
      if (headersOf hasRapid fz (normalizeLines fullText)).isEmpty then
        [("other", ⟨strToL "기타", joinLines (normalizeLines fullText), none⟩)]
      else
        buildSections (normalizeLines fullText)
          (headersOf hasRapid fz (normalizeLines fullText)) := by
  unfold split_sections_auto
  by_cases h : (headersOf hasRapid fz (normalizeLines fullText)).isEmpty
  · simp [h]
  · simp [h]

theorem split_template_eq (fullText : List Char) (fz : List Char → Option Nat)
    (hasRapid : Bool) :
    (split_sections_auto fullText fz hasRapid).2.2 = detect_template fullText := by
  unfold split_sections_auto
  by_cases h : (headersOf hasRapid fz (normalizeLines fullText)).isEmpty
  · simp [h]
  · simp [h]

theorem split_logs_sentinel (fullText : List Char) (fz : List Char → Option Nat)
    (hasRapid : Bool) (h : headersOf hasRapid fz (normalizeLines fullText) = []) :
    "[섹션] 유효 헤더를 찾지 못함 → 전체 본문을 'other'로 반환." ∈
      (split_sections_auto fullText fz hasRapid).2.1 := by
  unfold split_sections_auto
  simp [h]

theorem buildSections_map_fst (lines : List (List Char)) :
    ∀ hdrs, (buildSections lines hdrs).map Prod.fst = hdrs.map (fun e => e.2.1) := by
  intro hdrs
  induction hdrs with
  | nil => rfl
  | cons e rest ih =>
    obtain ⟨s, c, raw⟩ := e
    simp [buildSections, ih]

theorem buildSections_lookup (lines : List (List Char)) :
    ∀ hdrs, ((hdrs.map (fun e => e.2.1)).Nodup) →
      ∀ (j : Nat) (e : Nat × String × List Char), hdrs.get? j = some e →
      (buildSections lines hdrs).lookup e.2.1 =
        some ⟨e.2.2,
          sliceBody lines e.1
            (match hdrs.get? (j + 1) with
             | some e2 => e2.1
             | none => lines.length) e.2.2,
          some (e.2.1, "text", e.1)⟩ := by
  intro hdrs
  induction hdrs with
  | nil => intro _ j e hj; simp at hj
  | cons hd rest ih =>
    intro hnd j e hj
    obtain ⟨s, c, raw⟩ := hd
    cases j with
    | zero =>
      simp at hj
      subst hj
      simp only [buildSections, List.lookup, beq_self_eq_true]
      cases rest with
      | nil => rfl
      | cons e2 rest2 =>
        obtain ⟨s2, c2, raw2⟩ := e2
        rfl
    | succ j2 =>
      simp only [List.get?] at hj
      have hmem : e ∈ rest := List.get?_mem hj
      have hcne : (e.2.1 == c) = false := by
        have hcnot : c ∉ rest.map (fun x => x.2.1) := by
          rw [List.map_cons, List.nodup_cons] at hnd
          exact hnd.1
        have : e.2.1 ∈ rest.map (fun x => x.2.1) :=
          List.mem_map_of_mem (fun x => x.2.1) hmem
        rw [beq_eq_false_iff_ne]
        intro hcc
        rw [hcc] at this
        exact hcnot this
      simp only [buildSections, List.lookup, hcne]
      have hnd2 : ((rest.map (fun e => e.2.1)).Nodup) := by
        rw [List.map_cons, List.nodup_cons] at hnd
        exact hnd.2
      exact ih hnd2 j2 e hj

/-- Witness for c7_column_splitting: two two-token clusters with left edges
at 0 and 5 versus 200 and 205, all of height ten, are separated by the
single above-threshold gap from 5 to 200 and split at its midpoint. -/
theorem c7_column_splitting_witness :
    detect_columns
        [⟨0, 0, 4, 10, "a", 0, 0, 0⟩, ⟨5, 0, 9, 10, "b", 0, 0, 1⟩,
         ⟨200, 0, 204, 10, "c", 0, 0, 2⟩, ⟨205, 0, 209, 10, "d", 0, 0, 3⟩] =
      [[⟨0, 0, 4, 10, "a", 0, 0, 0⟩, ⟨5, 0, 9, 10, "b", 0, 0, 1⟩],
       [⟨200, 0, 204, 10, "c", 0, 0, 2⟩, ⟨205, 0, 209, 10, "d", 0, 0, 3⟩]] := by
  have h := (c7_column_splitting
      [⟨0, 0, 4, 10, "a", 0, 0, 0⟩, ⟨5, 0, 9, 10, "b", 0, 0, 1⟩,
       ⟨200, 0, 204, 10, "c", 0, 0, 2⟩, ⟨205, 0, 209, 10, "d", 0, 0, 3⟩]).2.2.2.1
    195 5 200 ⟨0, 0, 4, 10, "a", 0, 0, 0⟩ ⟨200, 0, 204, 10, "c", 0, 0, 2⟩
    (by norm_num [bigOf, xsOf, hMedOf, medianQ, sortedDedupInt, insertIntU, pyInt,
      gapsOf, List.insertionSort, List.orderedInsert, List.filter])
    (by simp) (by simp) (by norm_num) (by norm_num)
  rw [h]
  norm_num [List.filter]

/-- Witness for c10_detect_columns_partition at a concrete nonempty token
list. -/
theorem c10_detect_columns_partition_witness :
    ([⟨0, 0, 4, 10, "a", 0, 0, 0⟩] : List Token) ≠ [] ∧
    Perm (detect_columns [⟨0, 0, 4, 10, "a", 0, 0, 0⟩]).join
      [⟨0, 0, 4, 10, "a", 0, 0, 0⟩] :=
  ⟨by decide, c10_detect_columns_partition [⟨0, 0, 4, 10, "a", 0, 0, 0⟩] (by decide)⟩

/-- C1: for every input text, every key of the mapping returned by
split_sections_auto is one of the sixteen canonical section identifiers,
and no key occurs twice. -/
theorem c1_canonical_keys (fullText : List Char) (fz : List Char → Option Nat)
    (hasRapid : Bool) :
    (∀ k ∈ (split_sections_auto fullText fz hasRapid).1.map Prod.fst, k ∈ canonKeys) ∧
    ((split_sections_auto fullText fz hasRapid).1.map Prod.fst).Nodup := by
  rw [split_sections_eq]
  by_cases h : (headersOf hasRapid fz (normalizeLines fullText)).isEmpty
  · rw [if_pos h]
    constructor
    · intro k hk
      simp at hk
      subst hk
      decide
    · simp
  · rw [if_neg h]
    rw [buildSections_map_fst]
    refine ⟨fun k hk => ?_, headersOf_nodup hasRapid fz _⟩
    rw [List.mem_map] at hk
    obtain ⟨e, he, hk⟩ := hk
    rw [← hk]
    exact headersOf_canon_mem hasRapid fz _ e he

/-- Witness for c1_canonical_keys: the sentinel key of the degenerate run
on the empty document is canonical. -/
theorem c1_canonical_keys_witness : "other" ∈ canonKeys :=
  (c1_canonical_keys (strToL "") (fun _ => none) false).1 "other" (by decide)

/-- Counterexample to C2 as stated: on the empty document neither strategy
finds a header, yet the single synthetic section is stored under the key
other, not under a key named unclassified. -/
theorem c2_counterexample :
    headersOf false (fun _ => none) (normalizeLines (strToL "")) = [] ∧
    (split_sections_auto (strToL "") (fun _ => none) false).1.map Prod.fst = ["other"] ∧
    "unclassified" ∉ (split_sections_auto (strToL "") (fun _ => none) false).1.map Prod.fst := by
  refine ⟨by decide, by decide, by decide⟩

/-- C2 (amended): for every input text in which neither header-detection
strategy finds any header, split_sections_auto returns exactly one
synthetic section, stored under the sentinel key other with title 기타,
whose text is the whitespace-normalized document joined by newlines,
together with a log entry stating that no valid headers were found; the
template guess is still computed and the degenerate case is never an
error. -/
theorem c2_no_header_sentinel (fullText : List Char) (fz : List Char → Option Nat)
    (hasRapid : Bool)
    (h : headersOf hasRapid fz (normalizeLines fullText) = []) :
    (split_sections_auto fullText fz hasRapid).1 =
      [("other", ⟨strToL "기타", joinLines (normalizeLines fullText), none⟩)] ∧
    "[섹션] 유효 헤더를 찾지 못함 → 전체 본문을 'other'로 반환." ∈
      (split_sections_auto fullText fz hasRapid).2.1 ∧
    (split_sections_auto fullText fz hasRapid).2.2 = detect_template fullText := by
  refine ⟨?_, split_logs_sentinel _ _ _ h, split_template_eq _ _ _⟩
  rw [split_sections_eq, if_pos (by rw [h]; rfl)]

/-- Witness for c2_no_header_sentinel at the empty document. -/
theorem c2_no_header_sentinel_witness :
    (split_sections_auto (strToL "") (fun _ => none) false).1 =
      [("other", ⟨strToL "기타", joinLines (normalizeLines (strToL "")), none⟩)] :=
  (c2_no_header_sentinel (strToL "") (fun _ => none) false (by decide)).1

/-- Counterexample to C5 as stated: a document whose eight numbered headers
have no whitespace after the period is accepted by the numbered strategy
(eight distinct canonical keys), yet split_sections_auto reports
template_guess VENDOR, because detect_template independently requires
whitespace after the period in its line pattern. -/
theorem c5_counterexample :
    8 ≤ (collect_numbered_headers (normalizeLines
        (strToL "1.a\n2.b\n3.c\n4.d\n5.e\n6.f\n7.g\n8.h"))).length ∧
    (split_sections_auto (strToL "1.a\n2.b\n3.c\n4.d\n5.e\n6.f\n7.g\n8.h")
        (fun _ => none) false).2.2 = "VENDOR" :=
  ⟨by decide, by decide⟩

/-- C5 (amended): whenever the numbered-header scan yields at least eight
distinct canonical keys, split_sections_auto accepts those numbered headers
as the final header set; the template guess is computed independently by
detect_template from the raw text, and in particular equals KOSHA whenever
at least eight lines match the number-period-whitespace pattern. -/
theorem c5_numbered_acceptance (fullText : List Char) (fz : List Char → Option Nat)
    (hasRapid : Bool)
    (h : 8 ≤ (collect_numbered_headers (normalizeLines fullText)).length) :
    headersOf hasRapid fz (normalizeLines fullText) =
      sortHdrs (collect_numbered_headers (normalizeLines fullText)) ∧
    (split_sections_auto fullText fz hasRapid).2.2 = detect_template fullText ∧
    (8 ≤ countNumDotWs fullText →
      (split_sections_auto fullText fz hasRapid).2.2 = "KOSHA") := by
  refine ⟨?_, split_template_eq _ _ _, ?_⟩
  · unfold headersOf
    rw [if_pos h]
  · intro hcount
    rw [split_template_eq]
    simp only [detect_template]
    rw [decide_eq_true hcount]
    simp

/-- Witness for c5_numbered_acceptance on a well formed KOSHA document. -/
theorem c5_numbered_acceptance_witness :
    (split_sections_auto (strToL "1. a\n2. b\n3. c\n4. d\n5. e\n6. f\n7. g\n8. h")
        (fun _ => none) false).2.2 = "KOSHA" :=
  (c5_numbered_acceptance (strToL "1. a\n2. b\n3. c\n4. d\n5. e\n6. f\n7. g\n8. h")
    (fun _ => none) false (by decide)).2.2 (by decide)

/-- C6: within one run at most one section exists per canonical key; in
the numbered strategy a later line resolving to an already taken canonical
key is never accepted (the accepted header has the smallest line index
among the lines resolving to its key), and likewise in the candidate
strategy; and each accepted header's section is bounded by its own line
and the next accepted header's line (or the end of the document), so an
ignored duplicate neither contributes a section nor terminates the body of
the first one. -/
theorem c6_duplicate_headers (fullText : List Char) (fz : List Char → Option Nat)
    (hasRapid : Bool) :
    ((headersOf hasRapid fz (normalizeLines fullText)).map (fun e => e.2.1)).Nodup ∧
    (∀ (i : Nat) (c : String) (r : List Char) (j : Nat) (ln : List Char)
       (num : String) (title : List Char),
      (i, c, r) ∈ collect_numbered_headers (normalizeLines fullText) →
      (normalizeLines fullText).get? j = some ln →
      parseKosha ln = some (num, title) →
      NUM_TO_CANON.lookup num = some c → i ≤ j) ∧
    (∀ (i : Nat) (c : String) (r : List Char) (j : Nat) (t : List Char)
       (h : Option String),
      (i, c, r) ∈ dedupCandsGo hasRapid fz
        (collect_header_candidates (normalizeLines fullText)) [] →
      (j, t, h) ∈ collect_header_candidates (normalizeLines fullText) →
      map_title_to_canon hasRapid fz t h = some c → i ≤ j) ∧
    (∀ (j : Nat) (e : Nat × String × List Char),
      (headersOf hasRapid fz (normalizeLines fullText)).get? j = some e →
      (split_sections_auto fullText fz hasRapid).1.lookup e.2.1 =
        some ⟨e.2.2,
          sliceBody (normalizeLines fullText) e.1
            (match (headersOf hasRapid fz (normalizeLines fullText)).get? (j + 1) with
             | some e2 => e2.1
             | none => (normalizeLines fullText).length) e.2.2,
          some (e.2.1, "text", e.1)⟩) := by
  refine ⟨headersOf_nodup hasRapid fz _, ?_, ?_, ?_⟩
  · intro i c r j ln num title hmem hget hparse hlook
    unfold collect_numbered_headers at hmem
    have := collectNumGo_first (normalizeLines fullText) 0 [] i c r j ln num title
      hmem hget hparse hlook
    omega
  · intro i c r j t h hmem hjt hmap
    unfold collect_header_candidates at hmem hjt
    exact dedupCandsGo_first hasRapid fz (collectCandsGo (normalizeLines fullText) 0) []
      (collectCandsGo_pairwise (normalizeLines fullText) 0) i c r hmem j t h hjt hmap
  · intro j e hj
    have hne : (headersOf hasRapid fz (normalizeLines fullText)).isEmpty = false := by
      cases hh : headersOf hasRapid fz (normalizeLines fullText) with
      | nil => rw [hh] at hj; simp at hj
      | cons a l => simp
    rw [split_sections_eq, if_neg (by rw [hne]; simp)]
    exact buildSections_lookup (normalizeLines fullText) _
      (headersOf_nodup hasRapid fz _) j e hj

/-- Witness for c6_duplicate_headers: a document with two headers mapping
to hazards yields exactly one hazards section whose body stops only at the
next accepted distinct header. -/
theorem c6_duplicate_headers_witness :
    (split_sections_auto
        (strToL "2. 유해성\nbody a\n7. 취급 및 저장\nbody b\n2. 유해성 again\nbody c")
        (fun _ => none) false).1.lookup "hazards" =
      some ⟨strToL "유해성", strToL "body a", some ("hazards", "text", 0)⟩ := by
  have h := (c6_duplicate_headers
      (strToL "2. 유해성\nbody a\n7. 취급 및 저장\nbody b\n2. 유해성 again\nbody c")
      (fun _ => none) false).2.2.2 0 (0, "hazards", strToL "유해성") (by decide)
  exact h.trans (by decide)

/-- C9: with the fuzzy-matching library unavailable, title resolution is
oblivious to the fuzzy oracle, reduces to the number hint followed by
exact case-insensitive substring containment against the lexicon, returns
none when neither matches, and split_sections_auto produces the same
result for every oracle — the capability check is a total function and
cannot raise. -/
theorem c9_no_rapidfuzz :
    (∀ (fz fz2 : List Char → Option Nat) (raw : List Char) (hint : Option String),
      map_title_to_canon false fz raw hint = map_title_to_canon false fz2 raw hint) ∧
    (∀ (fz : List Char → Option Nat) (raw : List Char) (hint : Option String),
      map_title_to_canon false fz raw hint =
        (match (match hint with
                | some n => NUM_TO_CANON.lookup n
                | none => none) with
         | some c => some c
         | none => subMatch (stripWS (lowerL raw)))) ∧
    (∀ (fz : List Char → Option Nat) (raw : List Char) (hint : Option String),
      (match hint with
       | some n => NUM_TO_CANON.lookup n
       | none => none) = none →
      subMatch (stripWS (lowerL raw)) = none →
      map_title_to_canon false fz raw hint = none) ∧
    (∀ (fullText : List Char) (fz fz2 : List Char → Option Nat),
      split_sections_auto fullText fz false = split_sections_auto fullText fz2 false) := by
  have key : ∀ (fz : List Char → Option Nat) (raw : List Char) (hint : Option String),
      map_title_to_canon false fz raw hint =
        (match (match hint with
                | some n => NUM_TO_CANON.lookup n
                | none => none) with
         | some c => some c
         | none => subMatch (stripWS (lowerL raw))) := by
    intro fz raw hint
    simp only [map_title_to_canon]
    cases hint with
    | none =>
      dsimp only
      cases hs : subMatch (stripWS (lowerL raw)) with
      | some c => rfl
      | none => rfl
    | some n =>
      dsimp only
      cases hl : NUM_TO_CANON.lookup n with
      | some c => rfl
      | none =>
        dsimp only
        cases hs : subMatch (stripWS (lowerL raw)) with
        | some c => rfl
        | none => rfl
  have hded : ∀ (fz fz2 : List Char → Option Nat)
      (cands : List (Nat × List Char × Option String)) (seen : List String),
      dedupCandsGo false fz cands seen = dedupCandsGo false fz2 cands seen := by
    intro fz fz2 cands
    induction cands with
    | nil => intro seen; rfl
    | cons cand rest ih =>
      intro seen
      obtain ⟨i, t, h⟩ := cand
      simp only [dedupCandsGo]
      rw [show map_title_to_canon false fz t h = map_title_to_canon false fz2 t h from
        by rw [key, key]]
      cases hm : map_title_to_canon false fz2 t h with
      | none => exact ih seen
      | some c =>
        dsimp only
        by_cases hc : c ∈ seen
        · rw [if_pos hc, if_pos hc]
          exact ih seen
        · rw [if_neg hc, if_neg hc]
          rw [ih (c :: seen)]
  have hH : ∀ (lines : List (List Char)) (fz fz2 : List Char → Option Nat),
      headersOf false fz lines = headersOf false fz2 lines := by
    intro lines fz fz2
    unfold headersOf
    rw [hded fz fz2]
  refine ⟨fun fz fz2 raw hint => by rw [key, key], key, ?_, ?_⟩
  · intro fz raw hint h1 h2
    rw [key, h1]
    exact h2
  · intro fullText fz fz2
    simp only [split_sections_auto]
    rw [hH (normalizeLines fullText) fz fz2]

/-- Witness for c9_no_rapidfuzz: with fuzzy matching disabled a title that
matches neither a number hint nor any synonym resolves to none, even when
the oracle would claim a match. -/
theorem c9_no_rapidfuzz_witness :
    map_title_to_canon false (fun _ => some 0) (strToL "zzqq") none = none :=
  (c9_no_rapidfuzz).2.2.1 (fun _ => some 0) (strToL "zzqq") none (by decide) (by decide)

end MSDS
